import Mathlib

/-!
Verification of the indexing and ranking core of `simple_search_engine`
(`engine.py`): tokenization, inverted-index construction, BM25 scoring and
top-k result assembly with percentage-relevance normalization.

Python `dict`s are modelled as insertion-ordered association lists, float
arithmetic as exact arithmetic (`ℚ` inside the index, `ℝ` for scores, which
involve `math.log`), and the one possible `ZeroDivisionError` site in
`BM25Ranker.score` as an explicit predicate.
-/

set_option maxHeartbeats 1000000

namespace SimpleSearch

/-- A word character of the tokenizer's regex `\w`: letter, digit or underscore. -/
def isWordChar (c : Char) : Bool := c.isAlphanum || c = '_'

/-- Splits a character stream into maximal runs of word characters
(`re.findall(r"\w+", ...)` in `InvertedIndex.tokenize`); `cur` holds the
current run, reversed. -/
def tokAux : List Char → List Char → List (List Char)
  | [], [] => []
  | [], cur => [cur.reverse]
  | c :: cs, cur =>
    if isWordChar c then tokAux cs (c :: cur)
    else if cur = [] then tokAux cs [] else cur.reverse :: tokAux cs []

/-- `InvertedIndex.tokenize`: lowercase the text and return the maximal runs
of word characters, in order. -/
def tokenize (text : String) : List String :=
  (tokAux (text.data.map Char.toLower) []).map List.asString

/-- Lookup in an association list, mirroring Python `dict` access. -/
def alookup {κ ν : Type} [DecidableEq κ] : List (κ × ν) → κ → Option ν
  | [], _ => none
  | (k', v) :: rest, k => if k' = k then some v else alookup rest k

/-- `d[k] = v` on a Python `dict` modelled as an insertion-ordered association
list: update in place if the key is present, append otherwise. -/
def upsert {κ ν : Type} [DecidableEq κ] : List (κ × ν) → κ → ν → List (κ × ν)
  | [], k, v => [(k, v)]
  | (k', v') :: rest, k, v =>
    if k' = k then (k, v) :: rest else (k', v') :: upsert rest k v

/-- Occurrence count of a token, as stored by `collections.Counter`. -/
def countOcc (toks : List String) (t : String) : Nat := toks.count t

/-- Append a key if absent (tracks `dict` key insertion order). -/
def insertNew (l : List String) (t : String) : List String :=
  if t ∈ l then l else l ++ [t]

/-- The distinct keys of a `collections.Counter`, in first-occurrence order. -/
def firstOccs (toks : List String) : List String := toks.foldl insertNew []

/-- The postings map `InvertedIndex.index`: term ↦ (doc id ↦ count). -/
abbrev PostMap := List (String × List (Nat × Nat))

/-- State of an `InvertedIndex` after `build`. -/
structure InvertedIndex where
  index : PostMap
  doc_lens : List (Nat × Nat)
  N : Nat
  avg_dl : ℚ

/-- The inner loop of `InvertedIndex.build` for one document:
`for term, cnt in freqs.items(): self.index[term][i] = cnt`. -/
def indexDoc (idx : PostMap) (i : Nat) (toks : List String) : PostMap :=
  (firstOccs toks).foldl
    (fun acc t => upsert acc t (upsert ((alookup acc t).getD []) i (countOcc toks t))) idx

/-- The document loop of `InvertedIndex.build`. -/
def buildAux : List String → Nat → PostMap → List (Nat × Nat) → PostMap × List (Nat × Nat)
  | [], _, idx, lens => (idx, lens)
  | d :: ds, i, idx, lens =>
    buildAux ds (i + 1) (indexDoc idx i (tokenize d)) (lens ++ [(i, (tokenize d).length)])

/-- `InvertedIndex.build`: index every document, then set
`avg_dl = sum(self.doc_lens.values()) / self.N if self.N else 0`. -/
def build (docs : List String) : InvertedIndex :=
  let p := buildAux docs 0 [] []
  { index := p.1, doc_lens := p.2, N := docs.length,
    avg_dl := if docs.length = 0 then 0
      else ((p.2.map fun q => (q.2 : ℚ)).sum) / (docs.length : ℚ) }

/-- `len(self.idx.index.get(term, {}))` in `BM25Ranker.idf`. -/
def df (idx : InvertedIndex) (t : String) : Nat := ((alookup idx.index t).getD []).length

/-- The argument of the logarithm in `BM25Ranker.idf`. -/
def idfArg (idx : InvertedIndex) (t : String) : ℚ :=
  ((idx.N : ℚ) - (df idx t : ℚ) + 1 / 2) / ((df idx t : ℚ) + 1 / 2) + 1

/-- `BM25Ranker.idf`: `math.log((N - df + 0.5) / (df + 0.5) + 1)`. -/
noncomputable def idf (idx : InvertedIndex) (t : String) : ℝ :=
  Real.log ((idfArg idx t : ℚ) : ℝ)

/-- The per-document, per-term quantity accumulated by `BM25Ranker.score`:
`idf * (f * (k1 + 1)) / (f + k1 * (1 - b + b * dl / avg_dl))`. -/
noncomputable def contrib (idx : InvertedIndex) (k1 b : ℚ) (t : String) (f dl : Nat) : ℝ :=
  idf idx t *
    ((((f : ℚ) * (k1 + 1)) / ((f : ℚ) + k1 * (1 - b + b * (dl : ℚ) / idx.avg_dl)) : ℚ) : ℝ)

/-- One `scores[doc_id] += ...` update in `BM25Ranker.score`. -/
noncomputable def scoreStep (idx : InvertedIndex) (k1 b : ℚ) (t : String)
    (sc : List (Nat × ℝ)) (p : Nat × Nat) : List (Nat × ℝ) :=
  upsert sc p.1
    ((alookup sc p.1).getD 0 + contrib idx k1 b t p.2 ((alookup idx.doc_lens p.1).getD 0))

/-- One iteration of the query-term loop in `BM25Ranker.score`, including the
`if not postings: continue` guard. -/
noncomputable def scoreTerm (idx : InvertedIndex) (k1 b : ℚ)
    (sc : List (Nat × ℝ)) (t : String) : List (Nat × ℝ) :=
  let postings := (alookup idx.index t).getD []
  if postings = [] then sc else postings.foldl (scoreStep idx k1 b t) sc

/-- The `scores` accumulator of `BM25Ranker.score` after the query-term loop. -/
noncomputable def scoresAcc (idx : InvertedIndex) (k1 b : ℚ) (query : String) :
    List (Nat × ℝ) :=
  (firstOccs (tokenize query)).foldl (scoreTerm idx k1 b) []

/-- The comparison realized by `sorted(..., key=lambda x: x[1], reverse=True)`:
descending by score. -/
def rankLE (a b : Nat × ℝ) : Prop := b.2 ≤ a.2

noncomputable instance instDecRankLE : DecidableRel rankLE :=
  fun a b => Real.decidableLE b.2 a.2

instance instTotalRankLE : IsTotal (Nat × ℝ) rankLE := ⟨fun a b => le_total b.2 a.2⟩

instance instTransRankLE : IsTrans (Nat × ℝ) rankLE :=
  ⟨fun _ _ _ h1 h2 => le_trans h2 h1⟩

/-- `BM25Ranker.score`: stable descending sort of the accumulated scores,
truncated to the first `top_k` entries. -/
noncomputable def scoreFn (idx : InvertedIndex) (k1 b : ℚ) (query : String)
    (top_k : Nat) : List (Nat × ℝ) :=
  (List.insertionSort rankLE (scoresAcc idx k1 b query)).take top_k

/-- `SearchEngine.search`: score with the ranker defaults `k1 = 1.5`,
`b = 0.75`; on a non-empty hit list attach the `pct_relevance` column
`score / max_score * 100`, otherwise return no such column. -/
noncomputable def search (docs : List String) (query : String) (top_k : Nat) :
    List (Nat × ℝ) × Option (List ℝ) :=
  match scoreFn (build docs) (3 / 2) (3 / 4) query top_k with
  | [] => ([], none)
  | h :: t =>
    let m := (t.map Prod.snd).foldl max h.2
    (h :: t, some ((h :: t).map fun p => p.2 / m * 100))

/-- `df[text_col].fillna('')` in `SearchEngine.__init__`: a missing text cell
becomes the empty string. -/
def fillna (col : List (Option String)) : List String := col.map fun o => o.getD ""

/-- The index built by `SearchEngine.__init__` from the (possibly partial)
text column. -/
def engineIndex (col : List (Option String)) : InvertedIndex := build (fillna col)

/-- Holds exactly when `BM25Ranker.score` would evaluate `dl / self.idx.avg_dl`
with `avg_dl = 0` — i.e. raise `ZeroDivisionError`: some queried term has
non-empty postings while `avg_dl` is zero. -/
def scoreDivFault (idx : InvertedIndex) (query : String) : Bool :=
  decide (idx.avg_dl = 0) &&
    (firstOccs (tokenize query)).any fun t => !((alookup idx.index t).getD []).isEmpty

/-- Specification view of the postings list produced for term `t` by indexing
documents `ds` with ids starting at `i`. -/
def postingsFrom : List String → Nat → String → List (Nat × Nat)
  | [], _, _ => []
  | d :: ds, i, t =>
    (if t ∈ tokenize d then [(i, countOcc (tokenize d) t)] else []) ++
      postingsFrom ds (i + 1) t

/-- Specification view of the recorded document lengths. -/
def lensFrom : List String → Nat → List (Nat × Nat)
  | [], _ => []
  | d :: ds, i => (i, (tokenize d).length) :: lensFrom ds (i + 1)

/-- Total token count of a document list. -/
def totalLen (ds : List String) : Nat := (ds.map fun d => (tokenize d).length).sum

/-- All entries of a `pct_relevance` column, when present, lie in `(0, 100]`. -/
def pctBounded : Option (List ℝ) → Prop
  | none => True
  | some l => List.Forall (fun x => 0 < x ∧ x ≤ 100) l

/-! ### Association-list lemmas -/

theorem alookup_upsert_self {κ ν : Type} [DecidableEq κ] (l : List (κ × ν)) (k : κ) (v : ν) :
    alookup (upsert l k v) k = some v := by
  induction l with
  | nil => simp [upsert, alookup]
  | cons hd tl ih =>
    obtain ⟨k', v'⟩ := hd
    by_cases h : k' = k <;> simp [upsert, alookup, h, ih]

theorem alookup_upsert_ne {κ ν : Type} [DecidableEq κ] (l : List (κ × ν)) (k k' : κ) (v : ν)
    (h : k' ≠ k) : alookup (upsert l k v) k' = alookup l k' := by
  induction l with
  | nil => simp [upsert, alookup, Ne.symm h]
  | cons hd tl ih =>
    obtain ⟨k₀, v₀⟩ := hd
    by_cases h0 : k₀ = k
    · subst h0
      simp [upsert, alookup, Ne.symm h]
    · by_cases h1 : k₀ = k' <;> simp [upsert, alookup, h0, h1, ih, h]

theorem upsert_of_not_mem {κ ν : Type} [DecidableEq κ] (l : List (κ × ν)) (k : κ) (v : ν)
    (h : k ∉ l.map Prod.fst) : upsert l k v = l ++ [(k, v)] := by
  induction l with
  | nil => simp [upsert]
  | cons hd tl ih =>
    obtain ⟨k₀, v₀⟩ := hd
    simp only [List.map_cons, List.mem_cons] at h
    push_neg at h
    simp [upsert, Ne.symm h.1, ih h.2]

theorem mem_upsert {κ ν : Type} [DecidableEq κ] {l : List (κ × ν)} {k : κ} {v : ν}
    {p : κ × ν} (h : p ∈ upsert l k v) : p = (k, v) ∨ p ∈ l := by
  induction l with
  | nil => simpa [upsert] using h
  | cons hd tl ih =>
    obtain ⟨k₀, v₀⟩ := hd
    by_cases h0 : k₀ = k
    · simp only [upsert, if_pos h0, List.mem_cons] at h
      rcases h with h | h
      · exact Or.inl h
      · exact Or.inr (List.mem_cons_of_mem _ h)
    · simp only [upsert, if_neg h0, List.mem_cons] at h
      rcases h with h | h
      · exact Or.inr (by simp [h])
      · rcases ih h with h' | h'
        · exact Or.inl h'
        · exact Or.inr (List.mem_cons_of_mem _ h')

theorem alookup_mem {κ ν : Type} [DecidableEq κ] {l : List (κ × ν)} {k : κ} {v : ν}
    (h : alookup l k = some v) : (k, v) ∈ l := by
  induction l with
  | nil => simp [alookup] at h
  | cons hd tl ih =>
    obtain ⟨k₀, v₀⟩ := hd
    by_cases h0 : k₀ = k
    · subst h0
      rw [alookup, if_pos rfl, Option.some_inj] at h
      subst h
      exact List.mem_cons_self _ _
    · simp only [alookup, if_neg h0] at h
      exact List.mem_cons_of_mem _ (ih h)

/-! ### Tokenizer and `Counter` lemmas -/

theorem mem_countOcc {toks : List String} {t : String} : t ∈ toks ↔ 1 ≤ countOcc toks t := by
  simp [countOcc, Nat.one_le_iff_ne_zero, Nat.pos_iff_ne_zero.symm, List.count_pos_iff]

theorem mem_insertNew {l : List String} {t x : String} :
    x ∈ insertNew l t ↔ x ∈ l ∨ x = t := by
  by_cases h : t ∈ l
  · constructor
    · intro hx
      simp only [insertNew, if_pos h] at hx
      exact Or.inl hx
    · intro hx
      simp only [insertNew, if_pos h]
      rcases hx with hx | hx
      · exact hx
      · exact hx ▸ h
  · simp [insertNew, if_neg h]

theorem nodup_insertNew {l : List String} {t : String} (h : l.Nodup) :
    (insertNew l t).Nodup := by
  by_cases ht : t ∈ l
  · simpa [insertNew, if_pos ht] using h
  · simp [insertNew, if_neg ht, List.nodup_append, h, ht]

theorem mem_foldl_insertNew :
    ∀ (l acc : List String) (x : String), x ∈ l.foldl insertNew acc ↔ x ∈ acc ∨ x ∈ l
  | [], acc, x => by simp
  | t :: l, acc, x => by
    rw [List.foldl_cons, mem_foldl_insertNew l, mem_insertNew]
    simp only [List.mem_cons]
    tauto

theorem nodup_foldl_insertNew :
    ∀ (l acc : List String), acc.Nodup → (l.foldl insertNew acc).Nodup
  | [], acc, h => h
  | t :: l, acc, h => by
    rw [List.foldl_cons]
    exact nodup_foldl_insertNew l _ (nodup_insertNew h)

theorem mem_firstOccs {l : List String} {x : String} : x ∈ firstOccs l ↔ x ∈ l := by
  simp [firstOccs, mem_foldl_insertNew]

theorem nodup_firstOccs (l : List String) : (firstOccs l).Nodup :=
  nodup_foldl_insertNew l [] List.nodup_nil

/-! ### Characterization of `InvertedIndex.build` -/

theorem foldl_upsert_alookup (g : String → List (Nat × Nat) → List (Nat × Nat)) :
    ∀ (ks : List String), ks.Nodup → ∀ (idx : PostMap) (t : String),
      alookup (ks.foldl (fun acc t' => upsert acc t' (g t' ((alookup acc t').getD []))) idx) t =
        if t ∈ ks then some (g t ((alookup idx t).getD [])) else alookup idx t
  | [], _, idx, t => by simp
  | k :: ks, hnd, idx, t => by
    rw [List.foldl_cons]
    have hnd' := (List.nodup_cons.mp hnd).2
    have hk : k ∉ ks := (List.nodup_cons.mp hnd).1
    rw [foldl_upsert_alookup g ks hnd']
    by_cases ht : t ∈ ks
    · have hne : t ≠ k := fun e => hk (e ▸ ht)
      rw [if_pos ht, if_pos (List.mem_cons_of_mem _ ht),
        alookup_upsert_ne _ _ _ _ hne]
    · by_cases htk : t = k
      · subst htk
        rw [if_neg ht, if_pos (List.mem_cons_self _ _), alookup_upsert_self]
      · have hnotin : t ∉ k :: ks := by simp [htk, ht]
        rw [if_neg ht, if_neg hnotin, alookup_upsert_ne _ _ _ _ htk]

theorem indexDoc_alookup (idx : PostMap) (i : Nat) (toks : List String) (t : String) :
    alookup (indexDoc idx i toks) t =
      if t ∈ toks then some (upsert ((alookup idx t).getD []) i (countOcc toks t))
      else alookup idx t := by
  unfold indexDoc
  rw [foldl_upsert_alookup (fun t' inner => upsert inner i (countOcc toks t'))
    (firstOccs toks) (nodup_firstOccs toks) idx t]
  simp [mem_firstOccs]

theorem buildAux_snd :
    ∀ (ds : List String) (i : Nat) (idx : PostMap) (lens : List (Nat × Nat)),
      (buildAux ds i idx lens).2 = lens ++ lensFrom ds i
  | [], i, idx, lens => by simp [buildAux, lensFrom]
  | d :: ds, i, idx, lens => by
    rw [buildAux, buildAux_snd ds]
    simp [lensFrom]

theorem buildAux_fst_getD :
    ∀ (ds : List String) (i : Nat) (idx : PostMap) (lens : List (Nat × Nat)),
      (∀ t (p : Nat × Nat), p ∈ (alookup idx t).getD [] → p.1 < i) →
      ∀ t, (alookup (buildAux ds i idx lens).1 t).getD [] =
        (alookup idx t).getD [] ++ postingsFrom ds i t
  | [], i, idx, lens, _, t => by simp [buildAux, postingsFrom]
  | d :: ds, i, idx, lens, hbd, t => by
    rw [buildAux]
    have hstep : ∀ s, (alookup (indexDoc idx i (tokenize d)) s).getD [] =
        (alookup idx s).getD [] ++
          (if s ∈ tokenize d then [(i, countOcc (tokenize d) s)] else []) := by
      intro s
      rw [indexDoc_alookup]
      by_cases hs : s ∈ tokenize d
      · rw [if_pos hs, if_pos hs, Option.getD_some,
          upsert_of_not_mem _ _ _ (fun hmem => by
            obtain ⟨p, hp, hfst⟩ := List.mem_map.mp hmem
            exact absurd (hfst ▸ hbd s p hp) (lt_irrefl i))]
      · rw [if_neg hs, if_neg hs, List.append_nil]
    have hbd' : ∀ s (p : Nat × Nat),
        p ∈ (alookup (indexDoc idx i (tokenize d)) s).getD [] → p.1 < i + 1 := by
      intro s p hp
      rw [hstep s] at hp
      rcases List.mem_append.mp hp with hp | hp
      · exact Nat.lt_succ_of_lt (hbd s p hp)
      · by_cases hs : s ∈ tokenize d
        · rw [if_pos hs] at hp
          simp only [List.mem_singleton] at hp
          simp [hp]
        · rw [if_neg hs] at hp
          exact absurd hp (List.not_mem_nil p)
    rw [buildAux_fst_getD ds (i + 1) _ _ hbd' t, hstep t, postingsFrom,
      List.append_assoc]

theorem buildAux_fst_none :
    ∀ (ds : List String) (i : Nat) (idx : PostMap) (lens : List (Nat × Nat)) (t : String),
      alookup (buildAux ds i idx lens).1 t = none ↔
        (alookup idx t = none ∧ ∀ d ∈ ds, t ∉ tokenize d)
  | [], i, idx, lens, t => by simp [buildAux]
  | d :: ds, i, idx, lens, t => by
    rw [buildAux, buildAux_fst_none ds, indexDoc_alookup]
    by_cases hs : t ∈ tokenize d
    · simp [hs]
    · simp [hs]

theorem build_index_getD (docs : List String) (t : String) :
    (alookup (build docs).index t).getD [] = postingsFrom docs 0 t := by
  have h := buildAux_fst_getD docs 0 [] []
    (fun s p hp => by simp [alookup] at hp) t
  simpa [build, alookup] using h

theorem build_index_none (docs : List String) (t : String) :
    alookup (build docs).index t = none ↔ ∀ d ∈ docs, t ∉ tokenize d := by
  have h := buildAux_fst_none docs 0 [] [] t
  simpa [build, alookup] using h

theorem build_doc_lens (docs : List String) : (build docs).doc_lens = lensFrom docs 0 := by
  have h := buildAux_snd docs 0 [] []
  simpa [build] using h

theorem build_N (docs : List String) : (build docs).N = docs.length := rfl

/-! ### Lemmas about the specification views -/

theorem mem_postingsFrom :
    ∀ (ds : List String) (i : Nat) (t : String) (p1 p2 : Nat),
      (p1, p2) ∈ postingsFrom ds i t ↔
        ∃ k, k < ds.length ∧ p1 = i + k ∧ t ∈ tokenize (ds.getD k "") ∧
          p2 = countOcc (tokenize (ds.getD k "")) t
  | [], i, t, p1, p2 => by simp [postingsFrom]
  | d :: ds, i, t, p1, p2 => by
    rw [postingsFrom, List.mem_append, mem_postingsFrom ds]
    constructor
    · rintro (hp | ⟨k, hk, h1, h2, h3⟩)
      · by_cases hs : t ∈ tokenize d
        · rw [if_pos hs, List.mem_singleton, Prod.mk.injEq] at hp
          exact ⟨0, by simp, by omega, by simpa using hs, by simpa using hp.2⟩
        · rw [if_neg hs] at hp
          exact absurd hp (List.not_mem_nil _)
      · refine ⟨k + 1, by simpa using hk, by omega, ?_, ?_⟩
        · simpa using h2
        · simpa using h3
    · rintro ⟨k, hk, h1, h2, h3⟩
      cases k with
      | zero =>
        left
        have hd : (d :: ds).getD 0 "" = d := rfl
        rw [hd] at h2 h3
        rw [if_pos h2, List.mem_singleton, Prod.mk.injEq]
        exact ⟨by omega, h3⟩
      | succ k' =>
        right
        have hd : (d :: ds).getD (k' + 1) "" = ds.getD k' "" := by simp [List.getD]
        rw [hd] at h2 h3
        refine ⟨k', ?_, by omega, h2, h3⟩
        simp only [List.length_cons] at hk
        omega

theorem postingsFrom_fst_ge (ds : List String) (i : Nat) (t : String) (p : Nat × Nat)
    (hp : p ∈ postingsFrom ds i t) : i ≤ p.1 := by
  obtain ⟨p1, p2⟩ := p
  obtain ⟨k, _, h1, _, _⟩ := (mem_postingsFrom ds i t p1 p2).mp hp
  simp only
  omega

theorem postingsFrom_length_le :
    ∀ (ds : List String) (i : Nat) (t : String), (postingsFrom ds i t).length ≤ ds.length
  | [], _, _ => Nat.le_refl 0
  | d :: ds, i, t => by
    rw [postingsFrom, List.length_append]
    have h := postingsFrom_length_le ds (i + 1) t
    by_cases hs : t ∈ tokenize d <;> simp [hs] <;> omega

theorem postingsFrom_fst_nodup :
    ∀ (ds : List String) (i : Nat) (t : String),
      ((postingsFrom ds i t).map Prod.fst).Nodup
  | [], _, _ => List.nodup_nil
  | d :: ds, i, t => by
    rw [postingsFrom, List.map_append, List.nodup_append]
    refine ⟨?_, postingsFrom_fst_nodup ds (i + 1) t, ?_⟩
    · by_cases hs : t ∈ tokenize d <;> simp [hs]
    · intro x hx hx'
      obtain ⟨p, hp, rfl⟩ := List.mem_map.mp hx'
      have hge := postingsFrom_fst_ge ds (i + 1) t p hp
      by_cases hs : t ∈ tokenize d
      · rw [if_pos hs] at hx
        simp only [List.map_cons, List.map_nil, List.mem_singleton] at hx
        omega
      · rw [if_neg hs] at hx
        exact absurd hx (by simp)

theorem alookup_lensFrom :
    ∀ (ds : List String) (i j : Nat),
      alookup (lensFrom ds i) j =
        if i ≤ j ∧ j - i < ds.length then some (tokenize (ds.getD (j - i) "")).length
        else none
  | [], i, j => by simp [lensFrom, alookup]
  | d :: ds, i, j => by
    rw [lensFrom]
    by_cases hij : i = j
    · subst hij
      simp only [alookup, if_pos rfl]
      have h1 : i ≤ i ∧ i - i < (d :: ds).length := ⟨Nat.le_refl i, by simp⟩
      rw [if_pos h1]
      simp
    · simp only [alookup, if_neg hij]
      rw [alookup_lensFrom ds (i + 1) j]
      by_cases h2 : i + 1 ≤ j ∧ j - (i + 1) < ds.length
      · rw [if_pos h2]
        have h3 : i ≤ j ∧ j - i < (d :: ds).length := by
          simp only [List.length_cons]
          omega
        rw [if_pos h3]
        have h4 : j - i = (j - (i + 1)) + 1 := by omega
        rw [h4]
        simp [List.getD]
      · rw [if_neg h2]
        have h3 : ¬(i ≤ j ∧ j - i < (d :: ds).length) := by
          simp only [List.length_cons]
          omega
        rw [if_neg h3]

theorem lensFrom_sum :
    ∀ (ds : List String) (i : Nat),
      ((lensFrom ds i).map fun q => ((q.2 : Nat) : ℚ)).sum = (totalLen ds : ℚ)
  | [], _ => by simp [lensFrom, totalLen]
  | d :: ds, i => by
    rw [lensFrom, totalLen]
    simp only [List.map_cons, List.sum_cons]
    rw [lensFrom_sum ds (i + 1), totalLen]
    push_cast
    ring

theorem build_avg (docs : List String) :
    (build docs).avg_dl =
      if docs.length = 0 then 0 else (totalLen docs : ℚ) / (docs.length : ℚ) := by
  show (if docs.length = 0 then (0 : ℚ)
      else (((buildAux docs 0 [] []).2.map fun q => (q.2 : ℚ)).sum) / (docs.length : ℚ)) = _
  rw [buildAux_snd]
  simp only [List.nil_append]
  rw [lensFrom_sum docs 0]

theorem totalLen_pos {docs : List String} {j : Nat}
    (hj : j < docs.length) (hne : tokenize (docs.getD j "") ≠ []) : 1 ≤ totalLen docs := by
  have hmem : (tokenize (docs.getD j "")).length ∈ docs.map fun d => (tokenize d).length := by
    refine List.mem_map.mpr ⟨docs.getD j "", ?_, rfl⟩
    rw [List.getD_eq_getElem docs "" hj]
    exact docs.getElem_mem hj
  have hle : (tokenize (docs.getD j "")).length ≤ totalLen docs :=
    List.single_le_sum (fun x _ => Nat.zero_le x) _ hmem
  have h1 : 1 ≤ (tokenize (docs.getD j "")).length := List.length_pos.mpr hne
  omega

/-! ### Accumulation lemmas for `BM25Ranker.score` -/

/-- Total contribution of term `t` to the running score of document `d`. -/
noncomputable def termSum (idx : InvertedIndex) (k1 b : ℚ) (t : String) (d : Nat) : ℝ :=
  (((alookup idx.index t).getD []).map fun p =>
    if p.1 = d then contrib idx k1 b t p.2 ((alookup idx.doc_lens p.1).getD 0) else 0).sum

theorem scoreStep_alookup (idx : InvertedIndex) (k1 b : ℚ) (t : String)
    (sc : List (Nat × ℝ)) (p : Nat × Nat) (d : Nat) :
    (alookup (scoreStep idx k1 b t sc p) d).getD 0 =
      (alookup sc d).getD 0 +
        if p.1 = d then contrib idx k1 b t p.2 ((alookup idx.doc_lens p.1).getD 0)
        else 0 := by
  unfold scoreStep
  by_cases hpd : p.1 = d
  · rw [if_pos hpd, hpd, alookup_upsert_self, Option.getD_some]
  · rw [if_neg hpd, alookup_upsert_ne _ _ _ _ (Ne.symm hpd), add_zero]

theorem foldl_scoreStep_alookup (idx : InvertedIndex) (k1 b : ℚ) (t : String) (d : Nat) :
    ∀ (P : List (Nat × Nat)) (sc : List (Nat × ℝ)),
      (alookup (P.foldl (scoreStep idx k1 b t) sc) d).getD 0 =
        (alookup sc d).getD 0 +
          (P.map fun p =>
            if p.1 = d then contrib idx k1 b t p.2 ((alookup idx.doc_lens p.1).getD 0)
            else 0).sum
  | [], sc => by simp
  | p :: P, sc => by
    rw [List.foldl_cons, foldl_scoreStep_alookup idx k1 b t d P, scoreStep_alookup,
      List.map_cons, List.sum_cons, add_assoc]

theorem scoreTerm_eq (idx : InvertedIndex) (k1 b : ℚ) (sc : List (Nat × ℝ)) (t : String) :
    scoreTerm idx k1 b sc t =
      if (alookup idx.index t).getD [] = [] then sc
      else ((alookup idx.index t).getD []).foldl (scoreStep idx k1 b t) sc := rfl

theorem scoreTerm_alookup (idx : InvertedIndex) (k1 b : ℚ) (sc : List (Nat × ℝ))
    (t : String) (d : Nat) :
    (alookup (scoreTerm idx k1 b sc t) d).getD 0 =
      (alookup sc d).getD 0 + termSum idx k1 b t d := by
  rw [scoreTerm_eq]
  by_cases hp : (alookup idx.index t).getD [] = []
  · rw [if_pos hp]
    unfold termSum
    rw [hp]
    simp
  · rw [if_neg hp, foldl_scoreStep_alookup]
    rfl

theorem foldl_scoreTerm_alookup (idx : InvertedIndex) (k1 b : ℚ) (d : Nat) :
    ∀ (ts : List String) (sc : List (Nat × ℝ)),
      (alookup (ts.foldl (scoreTerm idx k1 b) sc) d).getD 0 =
        (alookup sc d).getD 0 + (ts.map fun t => termSum idx k1 b t d).sum
  | [], sc => by simp
  | t :: ts, sc => by
    rw [List.foldl_cons, foldl_scoreTerm_alookup idx k1 b d ts, scoreTerm_alookup,
      List.map_cons, List.sum_cons, add_assoc]

theorem scoresAcc_alookup (idx : InvertedIndex) (k1 b : ℚ) (q : String) (d : Nat) :
    (alookup (scoresAcc idx k1 b q) d).getD 0 =
      ((firstOccs (tokenize q)).map fun t => termSum idx k1 b t d).sum := by
  unfold scoresAcc
  rw [foldl_scoreTerm_alookup]
  simp [alookup]

theorem sum_if_fst_eq_of_not_mem {P : List (Nat × Nat)} {d : Nat} (g : Nat × Nat → ℝ)
    (hmem : d ∉ P.map Prod.fst) :
    (P.map fun p => if p.1 = d then g p else 0).sum = 0 := by
  induction P with
  | nil => rfl
  | cons p P ih =>
    simp only [List.map_cons, List.mem_cons] at hmem
    push_neg at hmem
    simp only [List.map_cons, List.sum_cons]
    rw [if_neg (fun h => hmem.1 h.symm), ih hmem.2, add_zero]

theorem sum_if_fst_eq_of_mem {P : List (Nat × Nat)} {d c : Nat} (g : Nat × Nat → ℝ)
    (hnd : (P.map Prod.fst).Nodup) (hmem : (d, c) ∈ P) :
    (P.map fun p => if p.1 = d then g p else 0).sum = g (d, c) := by
  induction P with
  | nil => cases hmem
  | cons p P ih =>
    simp only [List.map_cons, List.nodup_cons] at hnd
    simp only [List.map_cons, List.sum_cons]
    rcases List.mem_cons.mp hmem with he | hm
    · rw [← he]
      have hnot : d ∉ P.map Prod.fst := by
        have : (d, c).1 = p.1 := by rw [he]
        simpa [← this] using hnd.1
      rw [if_pos rfl, sum_if_fst_eq_of_not_mem g hnot, add_zero]
    · have hpd : p.1 ≠ d := by
        intro he'
        exact hnd.1 (he' ▸ List.mem_map.mpr ⟨(d, c), hm, rfl⟩)
      rw [if_neg hpd, ih hnd.2 hm, zero_add]

theorem termSum_build (docs : List String) (k1 b : ℚ) (t : String) (d : Nat) :
    termSum (build docs) k1 b t d =
      if d < docs.length ∧ t ∈ tokenize (docs.getD d "") then
        contrib (build docs) k1 b t (countOcc (tokenize (docs.getD d "")) t)
          ((tokenize (docs.getD d "")).length)
      else 0 := by
  unfold termSum
  rw [build_index_getD]
  by_cases hc : d < docs.length ∧ t ∈ tokenize (docs.getD d "")
  · rw [if_pos hc]
    have hmem : (d, countOcc (tokenize (docs.getD d "")) t) ∈ postingsFrom docs 0 t :=
      (mem_postingsFrom docs 0 t d _).mpr ⟨d, hc.1, by omega, hc.2, rfl⟩
    rw [sum_if_fst_eq_of_mem _ (postingsFrom_fst_nodup docs 0 t) hmem]
    rw [build_doc_lens, alookup_lensFrom]
    have hin : 0 ≤ d ∧ d - 0 < docs.length := ⟨Nat.zero_le d, by omega⟩
    rw [if_pos hin]
    simp
  · rw [if_neg hc]
    apply sum_if_fst_eq_of_not_mem
    intro hmem
    obtain ⟨p, hp, hfst⟩ := List.mem_map.mp hmem
    obtain ⟨p1, p2⟩ := p
    obtain ⟨k, hk, h1, h2, h3⟩ := (mem_postingsFrom docs 0 t p1 p2).mp hp
    have hp1 : p1 = d := hfst
    have hkd : k = d := by omega
    exact hc ⟨hkd ▸ hk, hkd ▸ h2⟩

/-! ### Positivity of the quantities computed over a built index -/

theorem avg_dl_nonneg (docs : List String) : 0 ≤ (build docs).avg_dl := by
  rw [build_avg]
  split_ifs
  · exact le_refl 0
  · positivity

theorem avg_dl_pos_of_postings {docs : List String} {t : String}
    (h : postingsFrom docs 0 t ≠ []) : 0 < (build docs).avg_dl := by
  obtain ⟨p, hp⟩ := List.exists_mem_of_ne_nil _ h
  obtain ⟨p1, p2⟩ := p
  obtain ⟨k, hk, h1, h2, h3⟩ := (mem_postingsFrom docs 0 t p1 p2).mp hp
  have hne : tokenize (docs.getD k "") ≠ [] := by
    intro he
    rw [he] at h2
    exact absurd h2 (List.not_mem_nil t)
  have htot := totalLen_pos hk hne
  rw [build_avg]
  have hlen : docs.length ≠ 0 := by omega
  rw [if_neg hlen]
  apply div_pos
  · exact_mod_cast htot
  · exact_mod_cast Nat.pos_of_ne_zero hlen

theorem idfArg_gt_one {idx : InvertedIndex} {t : String} (h : df idx t ≤ idx.N) :
    1 < idfArg idx t := by
  unfold idfArg
  have h1 : (0 : ℚ) < (idx.N : ℚ) - (df idx t : ℚ) + 1 / 2 := by
    have hc : (df idx t : ℚ) ≤ (idx.N : ℚ) := by exact_mod_cast h
    linarith
  have h2 : (0 : ℚ) < (df idx t : ℚ) + 1 / 2 := by positivity
  have h3 := div_pos h1 h2
  linarith

theorem idf_pos {idx : InvertedIndex} {t : String} (h : df idx t ≤ idx.N) :
    0 < idf idx t := by
  unfold idf
  apply Real.log_pos
  exact_mod_cast idfArg_gt_one h

theorem idf_nonneg {idx : InvertedIndex} {t : String} (h : df idx t ≤ idx.N) :
    0 ≤ idf idx t := le_of_lt (idf_pos h)

theorem df_build_le (docs : List String) (t : String) :
    df (build docs) t ≤ (build docs).N := by
  unfold df
  rw [build_index_getD, build_N]
  exact postingsFrom_length_le docs 0 t

theorem contrib_pos {idx : InvertedIndex} {k1 b : ℚ} {t : String} {f dl : Nat}
    (hk1 : 0 < k1) (hb0 : 0 ≤ b) (hb1 : b ≤ 1) (havg : 0 ≤ idx.avg_dl)
    (hdf : df idx t ≤ idx.N) (hf : 1 ≤ f) : 0 < contrib idx k1 b t f dl := by
  unfold contrib
  apply mul_pos (idf_pos hdf)
  have hfq : (1 : ℚ) ≤ (f : ℚ) := by exact_mod_cast hf
  have hnum : (0 : ℚ) < (f : ℚ) * (k1 + 1) := by nlinarith
  have hdiv : (0 : ℚ) ≤ b * (dl : ℚ) / idx.avg_dl :=
    div_nonneg (mul_nonneg hb0 (by positivity)) havg
  have hden : (0 : ℚ) < (f : ℚ) + k1 * (1 - b + b * (dl : ℚ) / idx.avg_dl) := by nlinarith
  exact_mod_cast div_pos hnum hden

theorem foldl_scoreStep_pos {idx : InvertedIndex} {k1 b : ℚ} {t : String} :
    ∀ (P : List (Nat × Nat)) (sc : List (Nat × ℝ)),
      (∀ p ∈ sc, 0 < (p : Nat × ℝ).2) →
      (∀ p ∈ P, 0 < contrib idx k1 b t (p : Nat × Nat).2 ((alookup idx.doc_lens p.1).getD 0)) →
      ∀ p ∈ P.foldl (scoreStep idx k1 b t) sc, 0 < (p : Nat × ℝ).2
  | [], _, hsc, _, p, hp => hsc p hp
  | q :: P, sc, hsc, hP, p, hp => by
    rw [List.foldl_cons] at hp
    refine foldl_scoreStep_pos P _ ?_ (fun r hr => hP r (List.mem_cons_of_mem _ hr)) p hp
    intro r hr
    rcases mem_upsert hr with he | hm
    · have hc := hP q (List.mem_cons_self _ _)
      have hold : 0 ≤ (alookup sc q.1).getD 0 := by
        cases hcase : alookup sc q.1 with
        | none => simp
        | some v =>
          have := hsc _ (alookup_mem hcase)
          simpa using le_of_lt this
      rw [he]
      exact add_pos_of_nonneg_of_pos hold hc
    · exact hsc r hm

theorem foldl_scoreTerm_pos {k1 b : ℚ} (hk1 : 0 < k1) (hb0 : 0 ≤ b) (hb1 : b ≤ 1)
    (docs : List String) :
    ∀ (ts : List String) (sc : List (Nat × ℝ)),
      (∀ p ∈ sc, 0 < (p : Nat × ℝ).2) →
      ∀ p ∈ ts.foldl (scoreTerm (build docs) k1 b) sc, 0 < (p : Nat × ℝ).2
  | [], _, hsc, p, hp => hsc p hp
  | t :: ts, sc, hsc, p, hp => by
    rw [List.foldl_cons] at hp
    refine foldl_scoreTerm_pos hk1 hb0 hb1 docs ts _ ?_ p hp
    rw [scoreTerm_eq]
    by_cases hp0 : (alookup (build docs).index t).getD [] = []
    · rw [if_pos hp0]
      exact hsc
    · rw [if_neg hp0]
      apply foldl_scoreStep_pos _ _ hsc
      intro r hr
      rw [build_index_getD] at hr
      obtain ⟨r1, r2⟩ := r
      obtain ⟨k, hk, h1, h2, h3⟩ := (mem_postingsFrom docs 0 t r1 r2).mp hr
      rw [build_index_getD] at hp0
      refine contrib_pos hk1 hb0 hb1 (avg_dl_nonneg docs) (df_build_le docs t) ?_
      show 1 ≤ r2
      rw [h3]
      exact mem_countOcc.mp h2

theorem scoresAcc_build_pos {k1 b : ℚ} (hk1 : 0 < k1) (hb0 : 0 ≤ b) (hb1 : b ≤ 1)
    (docs : List String) (q : String) :
    ∀ p ∈ scoresAcc (build docs) k1 b q, 0 < (p : Nat × ℝ).2 :=
  fun p hp =>
    foldl_scoreTerm_pos hk1 hb0 hb1 docs (firstOccs (tokenize q)) []
      (fun r hr => absurd hr (List.not_mem_nil r)) p hp

theorem mem_scoreFn {idx : InvertedIndex} {k1 b : ℚ} {q : String} {top_k : Nat}
    {p : Nat × ℝ} (hp : p ∈ scoreFn idx k1 b q top_k) : p ∈ scoresAcc idx k1 b q := by
  unfold scoreFn at hp
  exact (List.perm_insertionSort rankLE _).mem_iff.mp (List.take_subset top_k _ hp)

theorem scoreFn_pairwise (idx : InvertedIndex) (k1 b : ℚ) (q : String) (top_k : Nat) :
    List.Pairwise rankLE (scoreFn idx k1 b q top_k) :=
  List.Pairwise.sublist (List.take_sublist top_k _)
    (List.sorted_insertionSort rankLE (scoresAcc idx k1 b q))

/-! ### Stability of the descending sort -/

theorem filter_orderedInsert_of_neg (pr : Nat × ℝ → Bool) (a : Nat × ℝ)
    (ha : pr a = false) :
    ∀ l : List (Nat × ℝ), (List.orderedInsert rankLE a l).filter pr = l.filter pr
  | [] => by simp [List.orderedInsert, List.filter_cons, ha]
  | b :: l => by
    simp only [List.orderedInsert]
    by_cases hr : rankLE a b
    · rw [if_pos hr]
      simp [List.filter_cons, ha]
    · rw [if_neg hr]
      simp [List.filter_cons, filter_orderedInsert_of_neg pr a ha l]

theorem filter_orderedInsert_of_pos (pr : Nat × ℝ → Bool) (a : Nat × ℝ)
    (ha : pr a = true) (hskip : ∀ x, ¬ rankLE a x → pr x = false) :
    ∀ l : List (Nat × ℝ), (List.orderedInsert rankLE a l).filter pr = a :: l.filter pr
  | [] => by simp [List.orderedInsert, List.filter_cons, ha]
  | b :: l => by
    simp only [List.orderedInsert]
    by_cases hr : rankLE a b
    · rw [if_pos hr]
      simp [List.filter_cons, ha]
    · rw [if_neg hr]
      have hb : pr b = false := hskip b hr
      simp [List.filter_cons, hb, filter_orderedInsert_of_pos pr a ha hskip l]

theorem filter_insertionSort (s : ℝ) :
    ∀ l : List (Nat × ℝ),
      (List.insertionSort rankLE l).filter (fun p => decide (p.2 = s)) =
        l.filter (fun p => decide (p.2 = s))
  | [] => rfl
  | a :: l => by
    simp only [List.insertionSort]
    by_cases ha : a.2 = s
    · have hskip : ∀ x : Nat × ℝ, ¬ rankLE a x →
          (fun p : Nat × ℝ => decide (p.2 = s)) x = false := by
        intro x hx
        have hlt : a.2 < x.2 := not_le.mp (fun hle => hx hle)
        exact decide_eq_false (fun he => (ne_of_lt hlt).symm (he.trans ha.symm))
      rw [filter_orderedInsert_of_pos _ a (by simp [ha]) hskip,
        filter_insertionSort s l]
      simp [List.filter_cons, ha]
    · rw [filter_orderedInsert_of_neg _ a (by simp [ha]),
        filter_insertionSort s l]
      simp [List.filter_cons, ha]

/-! ### Result assembly -/

theorem foldl_max_of_le {l : List ℝ} {a : ℝ} (h : ∀ x ∈ l, x ≤ a) :
    l.foldl max a = a := by
  induction l with
  | nil => rfl
  | cons x l ih =>
    rw [List.foldl_cons, max_eq_left (h x (List.mem_cons_self _ _))]
    exact ih fun y hy => h y (List.mem_cons_of_mem _ hy)

theorem scoresAcc_of_all_empty {idx : InvertedIndex} {k1 b : ℚ} {q : String}
    (h : ∀ t, (alookup idx.index t).getD [] = []) : scoresAcc idx k1 b q = [] := by
  unfold scoresAcc
  generalize firstOccs (tokenize q) = ts
  induction ts with
  | nil => rfl
  | cons t ts ih =>
    rw [List.foldl_cons, scoreTerm_eq, if_pos (h t)]
    exact ih

theorem scoreFn_build_nil (k1 b : ℚ) (q : String) (top_k : Nat) :
    scoreFn (build []) k1 b q top_k = [] := by
  unfold scoreFn
  rw [scoresAcc_of_all_empty]
  · simp
  · intro t
    rw [build_index_getD]
    rfl

theorem build_no_div_fault (docs : List String) (q : String) :
    scoreDivFault (build docs) q = false := by
  unfold scoreDivFault
  by_cases havg : (build docs).avg_dl = 0
  · have hall : ((firstOccs (tokenize q)).any fun t =>
        !((alookup (build docs).index t).getD []).isEmpty) = false := by
      rw [List.any_eq_false]
      intro t _
      have hnil : (alookup (build docs).index t).getD [] = [] := by
        by_contra hne
        rw [build_index_getD] at hne
        exact absurd havg (ne_of_gt (avg_dl_pos_of_postings hne))
      simp [hnil]
    rw [hall, Bool.and_false]
  · rw [decide_eq_false havg, Bool.false_and]

theorem lensFrom_map_fst :
    ∀ (ds : List String) (i : Nat), (lensFrom ds i).map Prod.fst = List.range' i ds.length
  | [], _ => rfl
  | d :: ds, i => by
    rw [lensFrom, List.map_cons, lensFrom_map_fst ds (i + 1)]
    simp [List.range']

theorem lensFrom_map_snd :
    ∀ (ds : List String) (i : Nat),
      (lensFrom ds i).map Prod.snd = ds.map fun d => (tokenize d).length
  | [], _ => rfl
  | d :: ds, i => by
    rw [lensFrom, List.map_cons, lensFrom_map_snd ds (i + 1), List.map_cons]

theorem contrib_mono {idx : InvertedIndex} {k1 b : ℚ} {t : String} {f1 f2 dl : Nat}
    (hk1 : 0 < k1) (hb0 : 0 ≤ b) (hb1 : b ≤ 1) (havg : 0 ≤ idx.avg_dl)
    (hidf : 1 ≤ idfArg idx t) (hf : f1 ≤ f2) :
    contrib idx k1 b t f1 dl ≤ contrib idx k1 b t f2 dl := by
  unfold contrib
  have hidf0 : 0 ≤ idf idx t := Real.log_nonneg (by exact_mod_cast hidf)
  apply mul_le_mul_of_nonneg_left _ hidf0
  have hC : 0 ≤ k1 * (1 - b + b * (dl : ℚ) / idx.avg_dl) := by
    have hdiv : (0 : ℚ) ≤ b * (dl : ℚ) / idx.avg_dl :=
      div_nonneg (mul_nonneg hb0 (by positivity)) havg
    nlinarith
  rw [Rat.cast_le]
  by_cases h0 : f1 = 0
  · subst h0
    simp only [Nat.cast_zero, zero_mul, zero_div]
    apply div_nonneg
    · have : (0 : ℚ) ≤ (f2 : ℚ) := by positivity
      nlinarith
    · have : (0 : ℚ) ≤ (f2 : ℚ) := by positivity
      nlinarith
  · have hf1 : (1 : ℚ) ≤ (f1 : ℚ) := by
      exact_mod_cast Nat.one_le_iff_ne_zero.mpr h0
    have hf12 : (f1 : ℚ) ≤ (f2 : ℚ) := by exact_mod_cast hf
    rw [div_le_div_iff₀ (by linarith) (by linarith)]
    nlinarith [mul_nonneg (mul_nonneg (by linarith : (0 : ℚ) ≤ k1 + 1) hC)
      (sub_nonneg.mpr hf12)]

theorem termSum_append_single (idx : InvertedIndex) (k1 b : ℚ) (t : String)
    (P Q : List (Nat × Nat)) (d f : Nat)
    (h : alookup idx.index t = some (P ++ (d, f) :: Q))
    (hdP : d ∉ P.map Prod.fst) (hdQ : d ∉ Q.map Prod.fst) :
    termSum idx k1 b t d = contrib idx k1 b t f ((alookup idx.doc_lens d).getD 0) := by
  unfold termSum
  rw [h, Option.getD_some, List.map_append, List.sum_append, List.map_cons, List.sum_cons]
  rw [sum_if_fst_eq_of_not_mem _ hdP, sum_if_fst_eq_of_not_mem _ hdQ]
  simp

theorem search_cases (docs : List String) (q : String) (top_k : Nat) :
    (search docs q top_k = ([], none) ∧
        scoreFn (build docs) (3 / 2) (3 / 4) q top_k = []) ∨
    (∃ h t, scoreFn (build docs) (3 / 2) (3 / 4) q top_k = h :: t ∧
      search docs q top_k = (h :: t, some ((h :: t).map fun p => p.2 / h.2 * 100)) ∧
      0 < h.2 ∧ ∀ p ∈ h :: t, p.2 ≤ h.2) := by
  cases heq : scoreFn (build docs) (3 / 2) (3 / 4) q top_k with
  | nil =>
    left
    refine ⟨?_, rfl⟩
    unfold search
    rw [heq]
  | cons h t =>
    right
    have hpair : List.Pairwise rankLE (h :: t) :=
      heq ▸ scoreFn_pairwise (build docs) (3 / 2) (3 / 4) q top_k
    have hle : ∀ p ∈ h :: t, p.2 ≤ h.2 := by
      intro p hp
      rcases List.mem_cons.mp hp with he | hm
      · rw [he]
      · exact (List.pairwise_cons.mp hpair).1 p hm
    have hposmem : h ∈ scoreFn (build docs) (3 / 2) (3 / 4) q top_k := by
      rw [heq]
      exact List.mem_cons_self _ _
    have hpos : 0 < h.2 :=
      scoresAcc_build_pos (by norm_num) (by norm_num) (by norm_num) docs q h
        (mem_scoreFn hposmem)
    have hmax : (t.map Prod.snd).foldl max h.2 = h.2 := by
      apply foldl_max_of_le
      intro x hx
      obtain ⟨p, hp, rfl⟩ := List.mem_map.mp hx
      exact hle p (List.mem_cons_of_mem _ hp)
    refine ⟨h, t, rfl, ?_, hpos, hle⟩
    have hs : search docs q top_k =
        (h :: t, some ((h :: t).map fun p =>
          p.2 / ((t.map Prod.snd).foldl max h.2) * 100)) := by
      unfold search
      rw [heq]
    rw [hs, hmax]

/-! ### The claims -/

/-- C1: on a built index with at least one document, the final accumulated
score of document `d` is the sum, over the distinct query terms whose
postings contain `d`, of
`idf(t) * (f * (k1 + 1)) / (f + k1 * (1 - b + b * docLen / avgDocLen))`
with `f` the stored occurrence count of `t` in `d` and `docLen` the recorded
length of `d`; the second conjunct spells that accumulated quantity out as
the real-valued BM25 formula. -/
theorem c1_score_accumulation (docs : List String) (k1 b : ℚ) (q : String) (d : Nat)
    (hN : 1 ≤ docs.length) :
    ((alookup (scoresAcc (build docs) k1 b q) d).getD 0 =
      ((firstOccs (tokenize q)).map fun t =>
        if d < docs.length ∧ t ∈ tokenize (docs.getD d "") then
          contrib (build docs) k1 b t (countOcc (tokenize (docs.getD d "")) t)
            ((tokenize (docs.getD d "")).length)
        else 0).sum) ∧
    ∀ (t : String) (f dl : Nat),
      contrib (build docs) k1 b t f dl =
        idf (build docs) t * ((f : ℝ) * ((k1 : ℝ) + 1)) /
          ((f : ℝ) + (k1 : ℝ) *
            (1 - (b : ℝ) + (b : ℝ) * (dl : ℝ) / ((build docs).avg_dl : ℝ))) := by
  constructor
  · rw [scoresAcc_alookup]
    simp only [termSum_build]
  · intro t f dl
    unfold contrib
    rw [Rat.cast_div]
    push_cast
    ring

/-- Witness for C1: a concrete one-document corpus and single-term query. -/
theorem c1_witness :
    1 ≤ (["the cat sat"] : List String).length ∧
      (alookup (scoresAcc (build ["the cat sat"]) (3 / 2) (3 / 4) "cat") 0).getD 0 =
        ((firstOccs (tokenize "cat")).map fun t =>
          if 0 < (["the cat sat"] : List String).length ∧
              t ∈ tokenize ((["the cat sat"] : List String).getD 0 "") then
            contrib (build ["the cat sat"]) (3 / 2) (3 / 4) t
              (countOcc (tokenize ((["the cat sat"] : List String).getD 0 "")) t)
              ((tokenize ((["the cat sat"] : List String).getD 0 "")).length)
          else 0).sum :=
  ⟨by decide, (c1_score_accumulation ["the cat sat"] (3 / 2) (3 / 4) "cat" 0 (by decide)).1⟩

/-- C2: scoring a built index never evaluates `dl / avg_dl` with a zero
divisor, for any query — with `doc_count = 0` the postings are all empty, and
whenever a queried term has non-empty postings `avg_dl` is strictly positive —
so `BM25Ranker.score` raises no division error; with `doc_count = 0` it
returns the empty list. -/
theorem c2_no_division_error (docs : List String) (k1 b : ℚ) (q : String) (top_k : Nat) :
    scoreDivFault (build docs) q = false ∧
      (docs.length = 0 → scoreFn (build docs) k1 b q top_k = []) := by
  refine ⟨build_no_div_fault docs q, fun h0 => ?_⟩
  have hnil : docs = [] := List.length_eq_zero.mp h0
  subst hnil
  exact scoreFn_build_nil k1 b q top_k

/-- Witness for C2: the empty corpus. -/
theorem c2_witness :
    (([] : List String).length = 0) ∧
      scoreFn (build []) (3 / 2) (3 / 4) "cat" 10 = [] :=
  ⟨rfl, (c2_no_division_error [] (3 / 2) (3 / 4) "cat" 10).2 rfl⟩

/-- C4: in a built index a document id appears under a term iff the term
occurs at least once in that document's tokenized text, and every term
present in the postings map has document frequency between 1 and
`doc_count`. -/
theorem c4_postings_iff_occurs (docs : List String) (t : String) (j : Nat) :
    ((∃ c, (j, c) ∈ (alookup (build docs).index t).getD []) ↔
      (j < docs.length ∧ t ∈ tokenize (docs.getD j ""))) ∧
    (alookup (build docs).index t ≠ none →
      1 ≤ df (build docs) t ∧ df (build docs) t ≤ (build docs).N) := by
  constructor
  · rw [build_index_getD]
    constructor
    · rintro ⟨c, hc⟩
      obtain ⟨k, hk, h1, h2, h3⟩ := (mem_postingsFrom docs 0 t j c).mp hc
      have hkj : k = j := by omega
      exact ⟨hkj ▸ hk, hkj ▸ h2⟩
    · rintro ⟨hj, ht⟩
      exact ⟨countOcc (tokenize (docs.getD j "")) t,
        (mem_postingsFrom docs 0 t j _).mpr ⟨j, hj, by omega, ht, rfl⟩⟩
  · intro hne
    refine ⟨?_, df_build_le docs t⟩
    unfold df
    rw [build_index_getD]
    have hex : ¬ ∀ d ∈ docs, t ∉ tokenize d :=
      fun hall => hne ((build_index_none docs t).mpr hall)
    push_neg at hex
    obtain ⟨d0, hd0, ht0⟩ := hex
    obtain ⟨j0, hj0, hjd⟩ := List.mem_iff_getElem.mp hd0
    have hget : docs.getD j0 "" = d0 := by
      rw [List.getD_eq_getElem docs "" hj0, hjd]
    have hmem : (j0, countOcc (tokenize (docs.getD j0 "")) t) ∈ postingsFrom docs 0 t :=
      (mem_postingsFrom docs 0 t j0 _).mpr ⟨j0, hj0, by omega, by rw [hget]; exact ht0, rfl⟩
    exact List.length_pos.mpr (List.ne_nil_of_mem hmem)

/-- Witness for C4: `"cat"` is present in a concrete built index. -/
theorem c4_witness :
    alookup (build ["the cat sat"]).index "cat" ≠ none ∧
      1 ≤ df (build ["the cat sat"]) "cat" ∧
      df (build ["the cat sat"]) "cat" ≤ (build ["the cat sat"]).N :=
  ⟨by decide, (c4_postings_iff_occurs ["the cat sat"] "cat" 0).2 (by decide)⟩

/-- C5: `idf` computes `ln((N - df + 0.5) / (df + 0.5) + 1)` (exactly the
spec's real-valued formula) and is non-negative whenever `df ≤ N`; the value
is a real number, hence finite, for every `df` and `N`. -/
theorem c5_idf_formula_nonneg (idx : InvertedIndex) (t : String) :
    idf idx t =
      Real.log (((idx.N : ℝ) - (df idx t : ℝ) + 1 / 2) / ((df idx t : ℝ) + 1 / 2) + 1) ∧
    (df idx t ≤ idx.N → 0 ≤ idf idx t) := by
  constructor
  · unfold idf idfArg
    push_cast
    rfl
  · exact idf_nonneg

/-- Witness for C5: a concrete built index where `df ≤ N`. -/
theorem c5_witness :
    df (build ["cat dog", "dog"]) "dog" ≤ (build ["cat dog", "dog"]).N ∧
      0 ≤ idf (build ["cat dog", "dog"]) "dog" :=
  ⟨by decide, (c5_idf_formula_nonneg (build ["cat dog", "dog"]) "dog").2 (by decide)⟩

/-- C8: `build` records one length per document in input order, sets
`doc_count` to the number of documents, and sets `avg_doc_length` to the
arithmetic mean of the recorded lengths — `0` when the collection is empty
(the `if self.N else 0` guard), with no division evaluated in that case. -/
theorem c8_doc_count_avg_len (docs : List String) :
    (build docs).N = docs.length ∧
    (build docs).doc_lens.map Prod.fst = List.range docs.length ∧
    (build docs).doc_lens.map Prod.snd = docs.map (fun d => (tokenize d).length) ∧
    (docs.length = 0 → (build docs).avg_dl = 0) ∧
    (docs.length ≠ 0 →
      (build docs).avg_dl =
        ((build docs).doc_lens.map fun p => (p.2 : ℚ)).sum / ((build docs).N : ℚ)) := by
  refine ⟨build_N docs, ?_, ?_, ?_, ?_⟩
  · rw [build_doc_lens, lensFrom_map_fst, List.range_eq_range']
  · rw [build_doc_lens, lensFrom_map_snd]
  · intro h0
    rw [build_avg, if_pos h0]
  · intro h0
    rw [build_avg, if_neg h0, build_doc_lens, build_N, lensFrom_sum]

/-- Witness for C8: a two-document corpus and the empty corpus. -/
theorem c8_witness :
    ((["the cat", "sat"] : List String).length ≠ 0 ∧
      (build ["the cat", "sat"]).avg_dl =
        ((build ["the cat", "sat"]).doc_lens.map fun p => (p.2 : ℚ)).sum /
          ((build ["the cat", "sat"]).N : ℚ)) ∧
    (build ([] : List String)).avg_dl = 0 :=
  ⟨⟨by decide, (c8_doc_count_avg_len ["the cat", "sat"]).2.2.2.2 (by decide)⟩,
    (c8_doc_count_avg_len []).2.2.2.1 rfl⟩

/-- C9: engine construction fills a missing text cell with the empty string
and never faults: the built index counts every row, a missing cell indexes as
a zero-length document, and exactly one `InvertedIndex` is built over the
extracted texts. -/
theorem c9_engine_fillna (col : List (Option String)) :
    (engineIndex col).N = col.length ∧
    engineIndex col = build (col.map fun o => o.getD "") ∧
    (∀ j, j < col.length → col.getD j (some "") = none →
      alookup (engineIndex col).doc_lens j = some 0) := by
  refine ⟨?_, rfl, ?_⟩
  · show (build (fillna col)).N = col.length
    rw [build_N]
    simp [fillna]
  · intro j hj hnone
    show alookup (build (fillna col)).doc_lens j = some 0
    rw [build_doc_lens, alookup_lensFrom]
    have hlen : j - 0 < (fillna col).length := by
      simp only [fillna, List.length_map]
      omega
    rw [if_pos ⟨Nat.zero_le j, hlen⟩]
    have hcol : col[j]? = some col[j] := List.getElem?_eq_getElem hj
    have hcell0 : col[j] = none := by
      have hgd : col.getD j (some "") = (col[j]?).getD (some "") :=
        List.getD_eq_getElem?_getD col j (some "")
      rw [hgd, hcol] at hnone
      simpa using hnone
    have hcell : (fillna col).getD j "" = "" := by
      have hgd : (fillna col).getD j "" = ((fillna col)[j]?).getD "" :=
        List.getD_eq_getElem?_getD (fillna col) j ""
      rw [hgd]
      show ((col.map fun o => o.getD "")[j]?).getD "" = ""
      rw [List.getElem?_map, hcol]
      simp [hcell0]
    rw [Nat.sub_zero, hcell]
    rfl

/-- Witness for C9: a column whose second cell is missing. -/
theorem c9_witness :
    1 < ([some "cat", none] : List (Option String)).length ∧
      ([some "cat", none] : List (Option String)).getD 1 (some "") = none ∧
      alookup (engineIndex [some "cat", none]).doc_lens 1 = some 0 :=
  ⟨by decide, by decide,
    (c9_engine_fillna [some "cat", none]).2.2 1 (by decide) (by decide)⟩

/-- C6: for a single-term query, increasing the stored occurrence count of
that term for one document — all other index state (other postings, document
lengths, average length, corpus size) equal — never decreases that document's
accumulated score: the BM25 term-frequency component is monotone in `f`. -/
theorem c6_tf_monotone (idx1 idx2 : InvertedIndex) (k1 b : ℚ) (t : String)
    (P Q : List (Nat × Nat)) (d f1 f2 : Nat) (q : String)
    (hq : firstOccs (tokenize q) = [t])
    (h1 : alookup idx1.index t = some (P ++ (d, f1) :: Q))
    (h2 : alookup idx2.index t = some (P ++ (d, f2) :: Q))
    (hdl : idx1.doc_lens = idx2.doc_lens)
    (havg : idx1.avg_dl = idx2.avg_dl)
    (hN : idx1.N = idx2.N)
    (hdP : d ∉ P.map Prod.fst) (hdQ : d ∉ Q.map Prod.fst)
    (hk1 : 0 < k1) (hb0 : 0 ≤ b) (hb1 : b ≤ 1)
    (havg0 : 0 ≤ idx1.avg_dl) (hdf : df idx1 t ≤ idx1.N)
    (hf : f1 ≤ f2) :
    (alookup (scoresAcc idx1 k1 b q) d).getD 0 ≤
      (alookup (scoresAcc idx2 k1 b q) d).getD 0 := by
  rw [scoresAcc_alookup, scoresAcc_alookup, hq]
  simp only [List.map_cons, List.map_nil, List.sum_cons, List.sum_nil, add_zero]
  rw [termSum_append_single idx1 k1 b t P Q d f1 h1 hdP hdQ,
    termSum_append_single idx2 k1 b t P Q d f2 h2 hdP hdQ, ← hdl]
  have hcontribeq : ∀ (f dl : Nat),
      contrib idx2 k1 b t f dl = contrib idx1 k1 b t f dl := by
    intro f dl
    have hdfeq : df idx2 t = df idx1 t := by
      unfold df
      rw [h1, h2]
      simp
    unfold contrib idf idfArg
    rw [hdfeq, ← hN, ← havg]
  rw [hcontribeq]
  exact contrib_mono hk1 hb0 hb1 havg0 (le_of_lt (idfArg_gt_one hdf)) hf

/-- Witness for C6: two concrete one-document index states differing only in
the stored count of `"cat"` for document 0. -/
theorem c6_witness :
    (alookup (scoresAcc (InvertedIndex.mk [("cat", [(0, 1)])] [(0, 3)] 1 3)
        (3 / 2) (3 / 4) "cat") 0).getD 0 ≤
      (alookup (scoresAcc (InvertedIndex.mk [("cat", [(0, 2)])] [(0, 3)] 1 3)
        (3 / 2) (3 / 4) "cat") 0).getD 0 :=
  c6_tf_monotone _ _ (3 / 2) (3 / 4) "cat" [] [] 0 1 2 "cat"
    (by decide) (by decide) (by decide) rfl rfl rfl (by decide) (by decide)
    (by norm_num) (by norm_num) (by norm_num) (by decide) (by decide) (by decide)

/-- C7: `BM25Ranker.score` returns the accumulated pairs sorted by score
descending, stably — ties keep the accumulator's first-insertion order, as
the sort leaves every equal-score fibre of the accumulator unchanged — and
truncated to the first `top_k` entries: the result's length is the minimum of
`top_k` and the number of scored documents, and `top_k = 0` yields `[]`. -/
theorem c7_sorted_truncated (idx : InvertedIndex) (k1 b : ℚ) (q : String) (top_k : Nat) :
    scoreFn idx k1 b q top_k =
      (List.insertionSort rankLE (scoresAcc idx k1 b q)).take top_k ∧
    List.Pairwise (fun a b : Nat × ℝ => b.2 ≤ a.2) (scoreFn idx k1 b q top_k) ∧
    (List.insertionSort rankLE (scoresAcc idx k1 b q)).Perm (scoresAcc idx k1 b q) ∧
    (∀ s : ℝ, (List.insertionSort rankLE (scoresAcc idx k1 b q)).filter
        (fun p => decide (p.2 = s)) =
      (scoresAcc idx k1 b q).filter (fun p => decide (p.2 = s))) ∧
    (scoreFn idx k1 b q top_k).length = min top_k (scoresAcc idx k1 b q).length ∧
    scoreFn idx k1 b q 0 = [] := by
  refine ⟨rfl, scoreFn_pairwise idx k1 b q top_k, List.perm_insertionSort rankLE _,
    fun s => filter_insertionSort s _, ?_, rfl⟩
  unfold scoreFn
  rw [List.length_take, (List.perm_insertionSort rankLE _).length_eq]

/-- C3: a search with hits carries `pct_relevance = score / max_score * 100`
where the maximum is the head's score (the hit list is sorted descending) and
is strictly positive — so the quotient is well defined and never faults, the
`max_score = 0` case being unreachable for a built engine — and the
top-ranked result's percentage is exactly 100; a search with no hits returns
no `pct_relevance` column at all. -/
theorem c3_pct_relevance (docs : List String) (q : String) (top_k : Nat) :
    ((search docs q top_k).1 = [] → (search docs q top_k).2 = none) ∧
    (0 < (search docs q top_k).1.length →
      0 < ((search docs q top_k).1.headI).2 ∧
      (∀ p ∈ (search docs q top_k).1, p.2 ≤ ((search docs q top_k).1.headI).2) ∧
      (search docs q top_k).2 =
        some ((search docs q top_k).1.map fun p =>
          p.2 / ((search docs q top_k).1.headI).2 * 100) ∧
      ((search docs q top_k).2.getD []).headI = (100 : ℝ)) := by
  rcases search_cases docs q top_k with ⟨hs, _⟩ | ⟨h, t, heq, hs, hpos, hle⟩
  · rw [hs]
    exact ⟨fun _ => rfl, fun hlen => absurd hlen (by simp)⟩
  · rw [hs]
    refine ⟨fun hnil => absurd hnil (by simp), fun _ => ⟨hpos, hle, rfl, ?_⟩⟩
    show h.2 / h.2 * 100 = (100 : ℝ)
    rw [div_self (ne_of_gt hpos), one_mul]

/-- Witness for C3: an empty corpus yields no column; a matching query on a
one-document corpus yields a head percentage of 100. -/
theorem c3_witness :
    (search [] "cat" 3).2 = none ∧
      ((search ["cat"] "cat" 1).2.getD []).headI = (100 : ℝ) :=
  ⟨(c3_pct_relevance [] "cat" 3).1 rfl,
    ((c3_pct_relevance ["cat"] "cat" 1).2 (by decide)).2.2.2⟩

/-- C10: every pair returned by `BM25Ranker.score` over a built index with
the ranker's default parameters has a strictly positive score, so a search
with hits has a strictly positive maximum (head) score, the normalization
never divides by zero, and every `pct_relevance` entry lies in `(0, 100]`. -/
theorem c10_scores_positive (docs : List String) (q : String) (top_k : Nat) :
    List.Forall (fun p : Nat × ℝ => 0 < p.2)
        (scoreFn (build docs) (3 / 2) (3 / 4) q top_k) ∧
    pctBounded (search docs q top_k).2 ∧
    (0 < (search docs q top_k).1.length → 0 < ((search docs q top_k).1.headI).2) := by
  have hall : ∀ p ∈ scoreFn (build docs) (3 / 2) (3 / 4) q top_k, 0 < (p : Nat × ℝ).2 :=
    fun p hp => scoresAcc_build_pos (by norm_num) (by norm_num) (by norm_num) docs q p
      (mem_scoreFn hp)
  refine ⟨List.forall_iff_forall_mem.mpr hall, ?_⟩
  rcases search_cases docs q top_k with ⟨hs, _⟩ | ⟨h, t, heq, hs, hpos, hle⟩
  · rw [hs]
    exact ⟨trivial, fun hlen => absurd hlen (by simp)⟩
  · rw [hs]
    constructor
    · show List.Forall (fun x => 0 < x ∧ x ≤ 100) ((h :: t).map fun p => p.2 / h.2 * 100)
      rw [List.forall_iff_forall_mem]
      intro x hx
      obtain ⟨p, hp, rfl⟩ := List.mem_map.mp hx
      have hppos : 0 < p.2 := hall p (by rw [heq]; exact hp)
      have hple : p.2 ≤ h.2 := hle p hp
      constructor
      · exact mul_pos (div_pos hppos hpos) (by norm_num)
      · have hd1 : p.2 / h.2 ≤ 1 := (div_le_one hpos).mpr hple
        nlinarith
    · exact fun _ => hpos

/-- Witness for C10: a two-document corpus where only document 1 matches. -/
theorem c10_witness :
    0 < (search ["dog", "cat"] "cat" 2).1.length ∧
      0 < ((search ["dog", "cat"] "cat" 2).1.headI).2 :=
  ⟨by decide, (c10_scores_positive ["dog", "cat"] "cat" 2).2.2 (by decide)⟩

end SimpleSearch
